import Mathlib

/-!
Verification of the imxrt-uart-log DMA logging engine.

The development shallowly embeds the crate's DMA logging state machine
(src/dma.rs, src/dma/writer.rs) together with the target/level filter and
one-time registration logic (src/lib.rs).  The circular DMA buffer and the
hardware transfer peripheral live in the external imxrt-hal crate; they are
modelled from the specification's descriptions of the Ring Buffer (spec 4.1)
and Transfer Engine (spec 4.2).  Bytes are modelled as characters, since the
wire format is ASCII text.
-/

namespace UartLog

/-- Log levels, mirroring the log crate's Level in increasing verbosity:
Error < Warn < Info < Debug < Trace (by numeric value). -/
inductive Level where
  | error
  | warn
  | info
  | debug
  | trace
deriving DecidableEq

/-- The numeric value of a Level, per the log crate (Error = 1 .. Trace = 5). -/
def Level.toNat : Level → Nat
  | .error => 1
  | .warn => 2
  | .info => 3
  | .debug => 4
  | .trace => 5

/-- Display text of a Level, per the log crate's Display implementation. -/
def Level.display : Level → String
  | .error => "ERROR"
  | .warn => "WARN"
  | .info => "INFO"
  | .debug => "DEBUG"
  | .trace => "TRACE"

/-- Log level filters, mirroring the log crate's LevelFilter
(Off = 0, Error = 1 .. Trace = 5). -/
inductive LevelFilter where
  | off
  | error
  | warn
  | info
  | debug
  | trace
deriving DecidableEq

/-- The numeric value of a LevelFilter, per the log crate. -/
def LevelFilter.toNat : LevelFilter → Nat
  | .off => 0
  | .error => 1
  | .warn => 2
  | .info => 3
  | .debug => 4
  | .trace => 5

/-- The log crate's comparison between a record level and a level filter:
the record is permitted when its numeric value is at most the filter's. -/
def levelPermitted (l : Level) (f : LevelFilter) : Bool :=
  l.toNat ≤ f.toNat

/-- A log record's data: level, target and the already-interpolated message. -/
structure Record where
  level : Level
  target : String
  message : String
deriving DecidableEq

/-- The serialized wire format of a record, per the write! format string in
Logger::log (src/dma.rs): a left bracket, the level, a space, the target,
a bracket-colon-space, the message, then CRLF. -/
def serialize (r : Record) : List Char :=
  ("[" ++ r.level.display ++ " " ++ r.target ++ "]: " ++ r.message ++ "\r\n").data

/-- Modelled from the spec: the imxrt-hal Circular DMA buffer (Ring Buffer,
spec 4.1).  The unread bytes are kept as a list; the capacity bounds the
unread length.  Only insertion and emptiness are exposed to software. -/
structure Circular where
  cap : Nat
  pending : List Char
deriving DecidableEq

/-- Modelled from the spec: Circular insertion "appends as many bytes as fit
starting at the write cursor; excess bytes are dropped. Never blocks, never
fails" (spec 4.1). -/
def Circular.insert (b : Circular) (cs : List Char) : Circular :=
  { b with pending := b.pending ++ cs.take (b.cap - b.pending.length) }

/-- Modelled from the spec: is_empty "reports whether unread length is zero"
(spec 4.1). -/
def Circular.is_empty (b : Circular) : Bool :=
  b.pending.isEmpty

/-- The Writer enum from src/dma/writer.rs: either a whole circular buffer
(idle, or just reclaimed) or the write half of an active transfer.  Both
variants delegate to the buffer's insert, which appends to the unread tail. -/
inductive Writer where
  | circularW (b : Circular)
  | writeHalfW (b : Circular)
deriving DecidableEq

/-- Writer::write_str from src/dma/writer.rs: insert the string's bytes and
unconditionally report success. -/
def Writer.write_str : Writer → String → Writer × Bool
  | .circularW b, s => (.circularW (b.insert s.data), true)
  | .writeHalfW b, s => (.writeHalfW (b.insert s.data), true)

/-- The buffer contents underlying a Writer. -/
def Writer.pendingOf : Writer → List Char
  | .circularW b => b.pending
  | .writeHalfW b => b.pending

/-- The buffer capacity underlying a Writer. -/
def Writer.capOf : Writer → Nat
  | .circularW b => b.cap
  | .writeHalfW b => b.cap

/-- Modelled from the spec: the Transfer Engine (spec 4.2) wrapped by
Sink (src/dma/sink.rs).  It holds the active transfer's buffer together
with the byte count scheduled when the transfer started, the hardware
transfer-complete flag, the interrupt-pending latch, and the bytes the
hardware has transmitted so far. -/
structure Sink where
  active : Option (Circular × Nat)
  complete : Bool
  intrPending : Bool
  out : List Char
deriving DecidableEq

/-- Sink::is_transfer_complete (src/dma/sink.rs): non-destructive query of
the hardware complete flag. -/
def Sink.is_transfer_complete (s : Sink) : Bool :=
  s.complete

/-- Sink::is_transfer_interrupt (src/dma/sink.rs): query of the interrupt
latch. -/
def Sink.is_transfer_interrupt (s : Sink) : Bool :=
  s.intrPending

/-- Sink::transfer_clear_interrupt (src/dma/sink.rs): clear the latch. -/
def Sink.transfer_clear_interrupt (s : Sink) : Sink :=
  { s with intrPending := false }

/-- Modelled from the spec: transfer_complete "if complete, relinquishes
ownership of the buffer back to the caller exactly once; returns nothing if
not yet complete or already reclaimed" (spec 4.2). -/
def Sink.transfer_complete (s : Sink) : Option (Circular × Sink) :=
  if s.complete then
    match s.active with
    | some (b, _) => some (b, { s with active := none, complete := false })
    | none => none
  else none

/-- Modelled from the spec: start_transfer "begins a hardware-driven transfer
of the buffer's unread region; from this point the engine exclusively owns the
buffer.  Precondition: no transfer is currently active — violating this is a
programmer error and must abort" (spec 4.2).  The abort is modelled as none. -/
def Sink.start_transfer (s : Sink) (b : Circular) : Option Sink :=
  match s.active with
  | none => some { s with active := some (b, b.pending.length) }
  | some _ => none

/-- Modelled from the spec: the hardware completion event.  The scheduled
bytes (fixed when the transfer started) are transmitted; bytes appended via
the write half stay in the buffer for a later transfer (spec 4.2, 4.4).  The
complete flag and the interrupt latch are raised. -/
def Sink.hwComplete (s : Sink) : Sink :=
  match s.active with
  | some (b, n) =>
      if s.complete then s
      else
        { active := some (⟨b.cap, b.pending.drop n⟩, 0)
          complete := true
          intrPending := true
          out := s.out ++ b.pending.take n }
  | none => s

/-- The Inner state of the DMA logger (src/dma.rs): the sink and the
ownership slot.  If buffer is some, the engine is idle. -/
structure Inner where
  sink : Sink
  buffer : Option Circular
deriving DecidableEq

/-- The interpolated writes issued by write! for the record format string,
in source order: the literal pieces and the three Display arguments each
reach Writer::write_str separately. -/
def writeRecordCircular (b : Circular) (r : Record) : Circular :=
  ((((((b.insert "[".data).insert r.level.display.data).insert " ".data).insert
      r.target.data).insert "]: ".data).insert r.message.data).insert "\r\n".data

/-- Appending a record through the write half of the active transfer
(Logger::log branch 3 in src/dma.rs): the unsent tail of the sink's buffer
receives the serialized bytes; the scheduled count and flags are untouched.
Returns none when no transfer is active (the write_half().unwrap() panic). -/
def Sink.writeTail (s : Sink) (r : Record) : Option Sink :=
  match s.active with
  | some (b, n) => some { s with active := some (writeRecordCircular b r, n) }
  | none => none

/-- Logger::log's critical section body (src/dma.rs lines 186-228): the
three-branch decision algorithm.  none models a panic. -/
def Inner.log (st : Inner) (r : Record) : Option Inner :=
  match st.buffer with
  | some b =>
      match st.sink.start_transfer (writeRecordCircular b r) with
      | some snk => some ⟨snk, none⟩
      | none => none
  | none =>
      if st.sink.is_transfer_complete then
        match st.sink.transfer_complete with
        | some (b, snk) =>
            match snk.start_transfer (writeRecordCircular b r) with
            | some snk2 => some ⟨snk2, none⟩
            | none => none
        | none => none
      else
        match st.sink.writeTail r with
        | some snk => some ⟨snk, st.buffer⟩
        | none => none

/-- Logger::filtered (src/lib.rs lines 205-218): true when the filter list is
empty; otherwise look up the first entry whose target matches and check its
optional level threshold; false when no entry matches. -/
def filtered (filters : List (String × Option LevelFilter)) (target : String)
    (level : Level) : Bool :=
  if filters.isEmpty then
    true
  else
    match filters.find? (fun p => p.1 == target) with
    | some (_, lvl) =>
        lvl.isNone || (Option.filter (fun l => levelPermitted level l) lvl).isSome
    | none => false

/-- Logger::enabled (src/lib.rs lines 222-225, identically src/dma.rs lines
174-177): the level is within the global maximum and the target passes the
filter. -/
def enabled (maxLevel : LevelFilter) (filters : List (String × Option LevelFilter))
    (target : String) (level : Level) : Bool :=
  levelPermitted level maxLevel && filtered filters target level

/-- Logger::log including its enabled gate (src/dma.rs line 183): a disabled
record performs no work at all. -/
def Logger.log (maxLevel : LevelFilter) (filters : List (String × Option LevelFilter))
    (st : Inner) (r : Record) : Option Inner :=
  if enabled maxLevel filters r.target r.level then st.log r else some st

/-- The Poll result type (src/dma.rs). -/
inductive Poll where
  | Active
  | Idle
deriving DecidableEq

/-- The status computed at the end of poll() (src/dma.rs lines 298-301):
Idle when the slot holds a buffer, else Active. -/
def pollStatus (st : Inner) : Poll :=
  match st.buffer with
  | some _ => .Idle
  | none => .Active

/-- poll()'s critical section body (src/dma.rs lines 283-301): clear the
latch if set; if the transfer is complete reclaim the buffer, restarting
when it is non-empty and parking it in the slot otherwise; report the
resulting status.  none models a panic. -/
def Inner.poll (st : Inner) : Option (Poll × Inner) :=
  let s0 := if st.sink.is_transfer_interrupt then st.sink.transfer_clear_interrupt
            else st.sink
  if s0.is_transfer_complete then
    match s0.transfer_complete with
    | some (b, s1) =>
        if !b.is_empty then
          match s1.start_transfer b with
          | some s2 => some (pollStatus ⟨s2, st.buffer⟩, ⟨s2, st.buffer⟩)
          | none => none
        else
          some (pollStatus ⟨s1, some b⟩, ⟨s1, some b⟩)
    | none => none
  else
    some (pollStatus ⟨s0, st.buffer⟩, ⟨s0, st.buffer⟩)

/-- Iterated poll: pollN st n performs n + 1 successive poll() calls,
returning the last call's status and state. -/
def pollN (st : Inner) : Nat → Option (Poll × Inner)
  | 0 => st.poll
  | n + 1 =>
      match pollN st n with
      | some (_, st1) => st1.poll
      | none => none

/-- The initial engine state built by init() (src/dma.rs lines 350-361):
no transfer, clear flags, and an empty buffer of capacity c in the slot. -/
def initialInner (c : Nat) : Inner :=
  ⟨⟨none, false, false, []⟩, some ⟨c, []⟩⟩

/-- The state invariant of the engine: the slot holds a buffer exactly when
the sink has no in-flight or unreclaimed transfer; the complete flag and the
interrupt latch only ever refer to an existing transfer; and the scheduled
byte count never exceeds the buffer's unread length. -/
def Inv (st : Inner) : Prop :=
  (st.buffer.isSome ↔ st.sink.active = none)
  ∧ (st.sink.complete = true → st.sink.active ≠ none)
  ∧ (st.sink.intrPending = true → st.sink.active ≠ none)
  ∧ (∀ b n, st.sink.active = some (b, n) → n ≤ b.pending.length)

/-- The single allocated buffer keeps its capacity c wherever it travels. -/
def CapInv (c : Nat) (st : Inner) : Prop :=
  (∀ b, st.buffer = some b → b.cap = c)
  ∧ (∀ b n, st.sink.active = some (b, n) → b.cap = c)

/-- The bytes accepted by the engine but not yet transmitted: the unread
contents of the buffer, wherever it currently lives. -/
def inflight (st : Inner) : List Char :=
  match st.buffer with
  | some b => b.pending
  | none =>
      match st.sink.active with
      | some (b, _) => b.pending
      | none => []

/-- The hardware completion event lifted to the engine state. -/
def Inner.hwStep (st : Inner) : Inner :=
  ⟨st.sink.hwComplete, st.buffer⟩

/-- One atomic step of the engine: a log() call (with any filter
configuration, enabled or not), a poll() call, or the hardware completion
event. -/
inductive Step : Inner → Inner → Prop where
  | log {st st' : Inner} (maxLevel : LevelFilter)
      (filters : List (String × Option LevelFilter)) (r : Record) :
      Logger.log maxLevel filters st r = some st' → Step st st'
  | poll {st st' : Inner} (p : Poll) : st.poll = some (p, st') → Step st st'
  | hw (st : Inner) : Step st st.hwStep

/-- States reachable from a freshly initialized engine by any interleaving of
log() calls, poll() calls and hardware completions. -/
inductive Reachable : Inner → Prop where
  | start (c : Nat) : Reachable (initialInner c)
  | step {st st' : Inner} : Reachable st → Step st st' → Reachable st'

/-- An event of an execution trace: an accepted record call, a poll() call,
or the hardware completion event. -/
inductive Event where
  | log (r : Record)
  | poll
  | hw
deriving DecidableEq

/-- Run one event on the engine state (none models a panic). -/
def runEvent (st : Inner) : Event → Option Inner
  | .log r => st.log r
  | .poll => Option.map Prod.snd st.poll
  | .hw => some st.hwStep

/-- Run a trace of events left to right. -/
def runTrace (st : Inner) : List Event → Option Inner
  | [] => some st
  | e :: tr =>
      match runEvent st e with
      | some st1 => runTrace st1 tr
      | none => none

/-- The records submitted by a trace, in call order. -/
def recordsOf : List Event → List Record
  | [] => []
  | .log r :: tr => r :: recordsOf tr
  | .poll :: tr => recordsOf tr
  | .hw :: tr => recordsOf tr

/-- The concatenated serializations of a list of records, in order. -/
def serAll (rs : List Record) : List Char :=
  rs.foldr (fun r acc => serialize r ++ acc) []

/-- The spec's reading of the filter: the record passes when the filter set
is empty, or when the target is present (first matching entry of the ordered
set) with either no threshold or a threshold at or above the record level. -/
def specPass (filters : List (String × Option LevelFilter)) (target : String)
    (level : Level) : Prop :=
  filters = [] ∨
    ∃ lvl : Option LevelFilter,
      filters.find? (fun p => p.1 == target) = some (target, lvl) ∧
        (lvl = none ∨ ∃ l, lvl = some l ∧ level.toNat ≤ l.toNat)

/-- The engine registered by init() (src/dma.rs lines 350-361): the filter
configuration and the inner state. -/
structure Engine where
  filters : List (String × Option LevelFilter)
  inner : Inner
deriving DecidableEq

/-- The global state surrounding init() and poll(): the crate's LOGGER slot,
the log crate's set-logger flag, and the log crate's global max level. -/
structure Globals where
  logger : Option Engine
  crateSet : Bool
  maxLevel : LevelFilter
deriving DecidableEq

/-- The globals before any registration: empty slot, the log crate unset,
and the log crate's initial max level, Off. -/
def freshGlobals : Globals := ⟨none, false, .off⟩

/-- init() (src/dma.rs lines 330-369): store a new engine into the LOGGER
slot only when it is vacant, then ask the log crate to set the logger, which
fails if a logger was already set; on success the max level is stored. -/
def dmaInit (g : Globals) (cfgFilters : List (String × Option LevelFilter))
    (cfgMax : LevelFilter) (snk : Sink) (buf : Circular) :
    Except Unit Unit × Globals :=
  let g1 := if g.logger.isNone
    then { g with logger := some ⟨cfgFilters, ⟨snk, some buf⟩⟩ }
    else g
  if g1.crateSet then (.error (), g1)
  else (.ok (), { g1 with crateSet := true, maxLevel := cfgMax })

/-- A log macro dispatch at the global level: use the registered engine's
filters and the global max level; without a registered logger the log crate
does nothing. -/
def gLog (g : Globals) (r : Record) : Option Globals :=
  match g.logger with
  | some e =>
      match Logger.log g.maxLevel e.filters e.inner r with
      | some st1 => some { g with logger := some { e with inner := st1 } }
      | none => none
  | none => some g

/-- poll() at the global level (src/dma.rs lines 274-303): the LOGGER slot
is unwrapped — an empty slot is a panic, modelled as none. -/
def gPoll (g : Globals) : Option (Poll × Globals) :=
  match g.logger with
  | none => none
  | some e =>
      match e.inner.poll with
      | some (p, st1) => some (p, { g with logger := some { e with inner := st1 } })
      | none => none

/-- A global event: an init() call or a poll() call. -/
inductive GEvent where
  | init (cfgFilters : List (String × Option LevelFilter)) (cfgMax : LevelFilter)
      (snk : Sink) (buf : Circular)
  | poll
deriving DecidableEq

/-- Run a list of global events; none models a panic. -/
def runG (g : Globals) : List GEvent → Option Globals
  | [] => some g
  | .init f m s b :: tr => runG (dmaInit g f m s b).2 tr
  | .poll :: tr =>
      match gPoll g with
      | some (_, g1) => runG g1 tr
      | none => none

/-- The trace of the spec's scenario: one record, hardware completion, then
a poll() that parks the drained buffer. -/
def trRun : List Event := [Event.log ⟨.info, "app", "a"⟩, Event.hw, Event.poll]

/-- The state reached by trRun from a fresh engine of capacity 64. -/
def stRun : Inner := ⟨⟨none, false, false, "[INFO app]: a\r\n".data⟩, some ⟨64, []⟩⟩

/-- A concrete set of globals in which init() has already succeeded. -/
def gAfterInit : Globals := ⟨some ⟨[], initialInner 4⟩, true, .info⟩

/-- Two successive insertions behave as one insertion of the concatenation:
truncation at the capacity commutes with splitting the byte stream. -/
lemma Circular.insert_insert (b : Circular) (xs ys : List Char) :
    (b.insert xs).insert ys = b.insert (xs ++ ys) := by
  simp only [Circular.insert, List.length_append, List.length_take]
  congr 1
  rw [List.take_append_eq_append_take, ← List.append_assoc]
  congr 2
  omega

/-- Insertion does not change the capacity. -/
lemma Circular.cap_insert (b : Circular) (cs : List Char) :
    (b.insert cs).cap = b.cap := rfl

/-- When the bytes fit in the remaining capacity, insertion appends exactly. -/
lemma Circular.insert_of_fits (b : Circular) (cs : List Char)
    (h : b.pending.length + cs.length ≤ b.cap) :
    (b.insert cs).pending = b.pending ++ cs := by
  simp only [Circular.insert]
  congr 1
  exact List.take_of_length_le (by omega)

/-- The piecewise writes issued by write! amount to a single insertion of the
serialized record. -/
lemma writeRecordCircular_eq (b : Circular) (r : Record) :
    writeRecordCircular b r = b.insert (serialize r) := by
  unfold writeRecordCircular
  rw [Circular.insert_insert, Circular.insert_insert, Circular.insert_insert,
    Circular.insert_insert, Circular.insert_insert, Circular.insert_insert]
  congr 1
  simp [serialize, String.data_append]

/-- writeRecordCircular does not change the capacity. -/
lemma cap_writeRecordCircular (b : Circular) (r : Record) :
    (writeRecordCircular b r).cap = b.cap := by
  rw [writeRecordCircular_eq]; rfl

/-- When the serialized record fits, writeRecordCircular appends it exactly. -/
lemma writeRecordCircular_of_fits (b : Circular) (r : Record)
    (h : b.pending.length + (serialize r).length ≤ b.cap) :
    (writeRecordCircular b r).pending = b.pending ++ serialize r := by
  rw [writeRecordCircular_eq]
  exact Circular.insert_of_fits b (serialize r) h

/-- Branch 1 of Logger::log: with an idle buffer in the slot, the record is
written into it and the transfer starts; the slot empties. -/
lemma log_idle (st : Inner) (r : Record) (b : Circular)
    (hb : st.buffer = some b) (ha : st.sink.active = none) :
    st.log r = some ⟨⟨some (writeRecordCircular b r,
        (writeRecordCircular b r).pending.length),
      st.sink.complete, st.sink.intrPending, st.sink.out⟩, none⟩ := by
  obtain ⟨⟨a, co, i, o⟩, buf⟩ := st
  simp only at hb ha
  subst hb ha
  rfl

/-- Branch 2 of Logger::log: with a completed transfer, the buffer is
reclaimed, the record appended, and the transfer restarted. -/
lemma log_completed (st : Inner) (r : Record) (b : Circular) (n : Nat)
    (hb : st.buffer = none) (hc : st.sink.complete = true)
    (ha : st.sink.active = some (b, n)) :
    st.log r = some ⟨⟨some (writeRecordCircular b r,
        (writeRecordCircular b r).pending.length),
      false, st.sink.intrPending, st.sink.out⟩, none⟩ := by
  obtain ⟨⟨a, co, i, o⟩, buf⟩ := st
  simp only at hb hc ha
  subst hb hc ha
  rfl

/-- Branch 3 of Logger::log: with an active, incomplete transfer, the record
is appended through the write half; the sink's transfer state is untouched. -/
lemma log_active (st : Inner) (r : Record) (b : Circular) (n : Nat)
    (hb : st.buffer = none) (hc : st.sink.complete = false)
    (ha : st.sink.active = some (b, n)) :
    st.log r = some ⟨⟨some (writeRecordCircular b r, n),
      st.sink.complete, st.sink.intrPending, st.sink.out⟩, none⟩ := by
  obtain ⟨⟨a, co, i, o⟩, buf⟩ := st
  simp only at hb hc ha
  subst hb hc ha
  rfl

/-- poll() with no completed transfer only clears the latch. -/
lemma poll_notComplete (st : Inner) (hc : st.sink.complete = false) :
    st.poll = some (pollStatus ⟨⟨st.sink.active, false, false, st.sink.out⟩, st.buffer⟩,
      ⟨⟨st.sink.active, false, false, st.sink.out⟩, st.buffer⟩) := by
  obtain ⟨⟨a, co, i, o⟩, buf⟩ := st
  simp only at hc
  subst hc
  cases i <;> rfl

/-- poll() with a completed transfer and a non-empty reclaimed buffer clears
the latch, reclaims, and immediately restarts the transfer. -/
lemma poll_complete_restart (st : Inner) (b : Circular) (n : Nat)
    (hc : st.sink.complete = true) (ha : st.sink.active = some (b, n))
    (hne : b.pending ≠ []) :
    st.poll = some (pollStatus ⟨⟨some (b, b.pending.length), false, false, st.sink.out⟩,
        st.buffer⟩,
      ⟨⟨some (b, b.pending.length), false, false, st.sink.out⟩, st.buffer⟩) := by
  obtain ⟨⟨a, co, i, o⟩, buf⟩ := st
  simp only at hc ha
  subst hc ha
  have hb : b.is_empty = false := by
    cases hp : b.pending with
    | nil => exact absurd hp hne
    | cons x xs => simp [Circular.is_empty, hp]
  cases i <;> simp [Inner.poll, Sink.is_transfer_interrupt, Sink.transfer_clear_interrupt,
    Sink.is_transfer_complete, Sink.transfer_complete, Sink.start_transfer, hb]

/-- poll() with a completed transfer and an empty reclaimed buffer clears the
latch, reclaims, and parks the buffer in the idle slot. -/
lemma poll_complete_park (st : Inner) (b : Circular) (n : Nat)
    (hc : st.sink.complete = true) (ha : st.sink.active = some (b, n))
    (he : b.pending = []) :
    st.poll = some (.Idle, ⟨⟨none, false, false, st.sink.out⟩, some b⟩) := by
  obtain ⟨⟨a, co, i, o⟩, buf⟩ := st
  simp only at hc ha
  subst hc ha
  have hb : b.is_empty = true := by simp [Circular.is_empty, he]
  cases i <;> simp [Inner.poll, Sink.is_transfer_interrupt, Sink.transfer_clear_interrupt,
    Sink.is_transfer_complete, Sink.transfer_complete, Sink.start_transfer, hb, pollStatus]

/-- Hardware completion of an in-flight transfer: the scheduled bytes move to
the transmitted output, the flags rise, and the appended tail stays unread. -/
lemma hwComplete_active (s : Sink) (b : Circular) (n : Nat)
    (ha : s.active = some (b, n)) (hc : s.complete = false) :
    s.hwComplete = ⟨some (⟨b.cap, b.pending.drop n⟩, 0), true, true,
      s.out ++ b.pending.take n⟩ := by
  obtain ⟨a, co, i, o⟩ := s
  simp only at ha hc
  subst ha hc
  rfl

/-- An accepted log() call never panics, preserves the invariants, produces
no output of its own, and appends the serialized record to the in-flight
bytes, provided the record fits in the remaining capacity. -/
lemma log_preserves (c : Nat) (st : Inner) (r : Record)
    (hInv : Inv st) (hCap : CapInv c st)
    (hroom : (inflight st).length + (serialize r).length ≤ c) :
    ∃ st1, st.log r = some st1 ∧ Inv st1 ∧ CapInv c st1 ∧
      st1.sink.out = st.sink.out ∧ inflight st1 = inflight st ++ serialize r := by
  obtain ⟨h1, h2, h3, h4⟩ := hInv
  obtain ⟨hc1, hc2⟩ := hCap
  cases hbuf : st.buffer with
  | some b =>
    have ha : st.sink.active = none := h1.mp (by simp [hbuf])
    have hinf : inflight st = b.pending := by simp [inflight, hbuf]
    have hfits : b.pending.length + (serialize r).length ≤ b.cap := by
      rw [hinf] at hroom
      rw [hc1 b hbuf]
      exact hroom
    have hw := writeRecordCircular_of_fits b r hfits
    refine ⟨_, log_idle st r b hbuf ha, ⟨by simp, by simp, by simp, ?_⟩,
      ⟨by simp, ?_⟩, rfl, ?_⟩
    · rintro b' n' h
      injection h with h
      injection h with hb' hn'
      subst hb' hn'
      exact Nat.le_refl _
    · rintro b' n' h
      injection h with h
      injection h with hb' hn'
      subst hb'
      rw [cap_writeRecordCircular]
      exact hc1 b hbuf
    · show (writeRecordCircular b r).pending = inflight st ++ serialize r
      rw [hw, hinf]
  | none =>
    have ha' : st.sink.active ≠ none := by
      intro h
      have := h1.mpr h
      rw [hbuf] at this
      simp at this
    obtain ⟨⟨b, n⟩, ha⟩ := Option.ne_none_iff_exists'.mp ha'
    have hinf : inflight st = b.pending := by simp [inflight, hbuf, ha]
    have hfits : b.pending.length + (serialize r).length ≤ b.cap := by
      rw [hinf] at hroom
      rw [hc2 b n ha]
      exact hroom
    have hw := writeRecordCircular_of_fits b r hfits
    cases hcomp : st.sink.complete with
    | true =>
      refine ⟨_, log_completed st r b n hbuf hcomp ha, ⟨by simp, by simp, by simp, ?_⟩,
        ⟨by simp, ?_⟩, rfl, ?_⟩
      · rintro b' n' h
        injection h with h
        injection h with hb' hn'
        subst hb' hn'
        exact Nat.le_refl _
      · rintro b' n' h
        injection h with h
        injection h with hb' hn'
        subst hb'
        rw [cap_writeRecordCircular]
        exact hc2 b n ha
      · show (writeRecordCircular b r).pending = inflight st ++ serialize r
        rw [hw, hinf]
    | false =>
      refine ⟨_, log_active st r b n hbuf hcomp ha, ⟨by simp, by simp [hcomp], by simp, ?_⟩,
        ⟨by simp, ?_⟩, rfl, ?_⟩
      · rintro b' n' h
        injection h with h
        injection h with hb' hn'
        subst hb' hn'
        rw [hw, List.length_append]
        exact Nat.le_trans (h4 b n ha) (Nat.le_add_right _ _)
      · rintro b' n' h
        injection h with h
        injection h with hb' hn'
        subst hb'
        rw [cap_writeRecordCircular]
        exact hc2 b n ha
      · show (writeRecordCircular b r).pending = inflight st ++ serialize r
        rw [hw, hinf]

/-- poll() never panics, preserves the invariants, performs no insertion and
transmits nothing: the output and the in-flight bytes are unchanged. -/
lemma poll_preserves (c : Nat) (st : Inner) (hInv : Inv st) (hCap : CapInv c st) :
    ∃ p st1, st.poll = some (p, st1) ∧ Inv st1 ∧ CapInv c st1 ∧
      st1.sink.out = st.sink.out ∧ inflight st1 = inflight st := by
  obtain ⟨h1, h2, h3, h4⟩ := hInv
  obtain ⟨hc1, hc2⟩ := hCap
  cases hcomp : st.sink.complete with
  | false =>
    refine ⟨_, _, poll_notComplete st hcomp, ⟨by simpa using h1, by simp, by simp, ?_⟩,
      ⟨by simpa using hc1, by simpa using hc2⟩, rfl, ?_⟩
    · simpa using h4
    · cases hbuf : st.buffer <;> simp [inflight, hbuf]
  | true =>
    obtain ⟨⟨b, n⟩, ha⟩ := Option.ne_none_iff_exists'.mp (h2 hcomp)
    have hbuf : st.buffer = none := by
      cases hbuf : st.buffer with
      | none => rfl
      | some b' =>
        have := h1.mp (by simp [hbuf])
        rw [this] at ha
        exact absurd ha (by simp)
    have hinf : inflight st = b.pending := by simp [inflight, hbuf, ha]
    cases hpend : b.pending with
    | nil =>
      refine ⟨_, _, poll_complete_park st b n hcomp ha hpend,
        ⟨by simp, by simp, by simp, by simp⟩,
        ⟨?_, by simp⟩, rfl, ?_⟩
      · rintro b' h
        injection h with hb'
        subst hb'
        exact hc2 b n ha
      · show b.pending = inflight st
        rw [hinf]
    | cons x xs =>
      refine ⟨_, _, poll_complete_restart st b n hcomp ha (by rw [hpend]; simp),
        ⟨by simp [hbuf], by simp, by simp, ?_⟩, ⟨by simp [hbuf], ?_⟩, rfl, ?_⟩
      · rintro b' n' h
        injection h with h
        injection h with hb' hn'
        subst hb' hn'
        exact Nat.le_refl _
      · rintro b' n' h
        injection h with h
        injection h with hb' hn'
        subst hb'
        exact hc2 b n ha
      · simp only [inflight, hbuf, ha]

/-- The hardware completion event preserves the invariants and conserves the
bytes: output plus in-flight contents are unchanged as a sequence. -/
lemma hw_preserves (c : Nat) (st : Inner) (hInv : Inv st) (hCap : CapInv c st) :
    Inv st.hwStep ∧ CapInv c st.hwStep ∧
      st.hwStep.sink.out ++ inflight st.hwStep = st.sink.out ++ inflight st := by
  obtain ⟨h1, h2, h3, h4⟩ := hInv
  obtain ⟨hc1, hc2⟩ := hCap
  cases ha : st.sink.active with
  | none =>
    have heq : st.hwStep = st := by
      unfold Inner.hwStep Sink.hwComplete
      rw [ha]
    rw [heq]
    exact ⟨⟨h1, h2, h3, h4⟩, ⟨hc1, hc2⟩, rfl⟩
  | some p =>
    obtain ⟨b, n⟩ := p
    cases hcomp : st.sink.complete with
    | true =>
      have heq : st.hwStep = st := by
        unfold Inner.hwStep Sink.hwComplete
        rw [ha, hcomp]
        simp
      rw [heq]
      exact ⟨⟨h1, h2, h3, h4⟩, ⟨hc1, hc2⟩, rfl⟩
    | false =>
      have hbuf : st.buffer = none := by
        cases hbuf : st.buffer with
        | none => rfl
        | some b' =>
          have := h1.mp (by simp [hbuf])
          rw [this] at ha
          exact absurd ha (by simp)
      have heq : st.hwStep = ⟨⟨some (⟨b.cap, b.pending.drop n⟩, 0), true, true,
          st.sink.out ++ b.pending.take n⟩, st.buffer⟩ := by
        unfold Inner.hwStep
        rw [hwComplete_active st.sink b n ha hcomp]
      rw [heq]
      refine ⟨⟨by simp [hbuf], by simp, by simp, ?_⟩, ⟨by simpa using hc1, ?_⟩, ?_⟩
      · rintro b' n' h
        injection h with h
        injection h with hb' hn'
        subst hb' hn'
        simp
      · rintro b' n' h
        injection h with h
        injection h with hb' hn'
        subst hb'
        exact hc2 b n ha
      · simp only [inflight, hbuf, ha]
        rw [List.append_assoc, List.take_append_drop]

/-- Insertion never shrinks the unread contents. -/
lemma Circular.le_length_insert (b : Circular) (cs : List Char) :
    b.pending.length ≤ (b.insert cs).pending.length := by
  simp [Circular.insert]

/-- An accepted log() call never panics and preserves the state invariant,
with or without room for the record. -/
lemma log_inv (st : Inner) (r : Record) (hInv : Inv st) :
    ∃ st1, st.log r = some st1 ∧ Inv st1 := by
  obtain ⟨h1, h2, h3, h4⟩ := hInv
  cases hbuf : st.buffer with
  | some b =>
    have ha : st.sink.active = none := h1.mp (by simp [hbuf])
    refine ⟨_, log_idle st r b hbuf ha, ⟨by simp, by simp, by simp, ?_⟩⟩
    rintro b' n' h
    injection h with h
    injection h with hb' hn'
    subst hb' hn'
    exact Nat.le_refl _
  | none =>
    have ha' : st.sink.active ≠ none := by
      intro h
      have := h1.mpr h
      rw [hbuf] at this
      simp at this
    obtain ⟨⟨b, n⟩, ha⟩ := Option.ne_none_iff_exists'.mp ha'
    cases hcomp : st.sink.complete with
    | true =>
      refine ⟨_, log_completed st r b n hbuf hcomp ha, ⟨by simp, by simp, by simp, ?_⟩⟩
      rintro b' n' h
      injection h with h
      injection h with hb' hn'
      subst hb' hn'
      exact Nat.le_refl _
    | false =>
      refine ⟨_, log_active st r b n hbuf hcomp ha, ⟨by simp, by simp [hcomp], by simp, ?_⟩⟩
      rintro b' n' h
      injection h with h
      injection h with hb' hn'
      subst hb' hn'
      calc n ≤ b.pending.length := h4 b n ha
        _ ≤ _ := by rw [writeRecordCircular_eq]; exact Circular.le_length_insert b _

/-- poll() never panics and preserves the state invariant. -/
lemma poll_inv (st : Inner) (hInv : Inv st) :
    ∃ p st1, st.poll = some (p, st1) ∧ Inv st1 := by
  obtain ⟨h1, h2, h3, h4⟩ := hInv
  cases hcomp : st.sink.complete with
  | false =>
    refine ⟨_, _, poll_notComplete st hcomp, ⟨by simpa using h1, by simp, by simp, ?_⟩⟩
    simpa using h4
  | true =>
    obtain ⟨⟨b, n⟩, ha⟩ := Option.ne_none_iff_exists'.mp (h2 hcomp)
    have hbuf : st.buffer = none := by
      cases hbuf : st.buffer with
      | none => rfl
      | some b' =>
        have := h1.mp (by simp [hbuf])
        rw [this] at ha
        exact absurd ha (by simp)
    cases hpend : b.pending with
    | nil =>
      exact ⟨_, _, poll_complete_park st b n hcomp ha hpend,
        ⟨by simp, by simp, by simp, by simp⟩⟩
    | cons x xs =>
      refine ⟨_, _, poll_complete_restart st b n hcomp ha (by rw [hpend]; simp),
        ⟨by simp [hbuf], by simp, by simp, ?_⟩⟩
      rintro b' n' h
      injection h with h
      injection h with hb' hn'
      subst hb' hn'
      exact Nat.le_refl _

/-- The hardware completion event preserves the state invariant. -/
lemma hw_inv (st : Inner) (hInv : Inv st) : Inv st.hwStep := by
  obtain ⟨h1, h2, h3, h4⟩ := hInv
  cases ha : st.sink.active with
  | none =>
    have heq : st.hwStep = st := by
      unfold Inner.hwStep Sink.hwComplete
      rw [ha]
    rw [heq]
    exact ⟨h1, h2, h3, h4⟩
  | some p =>
    obtain ⟨b, n⟩ := p
    cases hcomp : st.sink.complete with
    | true =>
      have heq : st.hwStep = st := by
        unfold Inner.hwStep Sink.hwComplete
        rw [ha, hcomp]
        simp
      rw [heq]
      exact ⟨h1, h2, h3, h4⟩
    | false =>
      have hbuf : st.buffer = none := by
        cases hbuf : st.buffer with
        | none => rfl
        | some b' =>
          have := h1.mp (by simp [hbuf])
          rw [this] at ha
          exact absurd ha (by simp)
      have heq : st.hwStep = ⟨⟨some (⟨b.cap, b.pending.drop n⟩, 0), true, true,
          st.sink.out ++ b.pending.take n⟩, st.buffer⟩ := by
        unfold Inner.hwStep
        rw [hwComplete_active st.sink b n ha hcomp]
      rw [heq]
      refine ⟨by simp [hbuf], by simp, by simp, ?_⟩
      rintro b' n' h
      injection h with h
      injection h with hb' hn'
      subst hb' hn'
      simp

/-- Every step preserves the state invariant. -/
lemma step_inv {st st' : Inner} (hInv : Inv st) (h : Step st st') : Inv st' := by
  cases h with
  | log maxLevel filters r heq =>
      unfold Logger.log at heq
      by_cases henb : enabled maxLevel filters r.target r.level = true
      · rw [if_pos henb] at heq
        obtain ⟨st1, heq1, hInv1⟩ := log_inv st r hInv
        rw [heq] at heq1
        injection heq1 with h1
        exact h1 ▸ hInv1
      · rw [if_neg henb] at heq
        injection heq with h1
        exact h1 ▸ hInv
  | poll p heq =>
      obtain ⟨p1, st1, heq1, hInv1⟩ := poll_inv st hInv
      rw [heq] at heq1
      injection heq1 with h1
      injection h1 with hp hst
      exact hst ▸ hInv1
  | hw => exact hw_inv st hInv

/-- The invariant holds in the initial state. -/
lemma inv_initial (c : Nat) : Inv (initialInner c) := by
  refine ⟨by simp [initialInner], by simp [initialInner], by simp [initialInner], ?_⟩
  rintro b n h
  simp [initialInner] at h

/-- The invariant holds in every reachable state. -/
lemma reachable_inv {st : Inner} (h : Reachable st) : Inv st := by
  induction h with
  | start c => exact inv_initial c
  | step _ hstep ih => exact step_inv ih hstep

lemma serAll_cons (r : Record) (rs : List Record) :
    serAll (r :: rs) = serialize r ++ serAll rs := rfl

/-- Running a trace whose records fit in the capacity never panics, keeps
the invariants, and conserves the byte stream: the transmitted output
followed by the in-flight bytes equals the previous stream plus every
serialized record of the trace, in order. -/
lemma run_ok (tr : List Event) (c : Nat) :
    ∀ st : Inner, Inv st → CapInv c st →
    st.sink.out.length + (inflight st).length + (serAll (recordsOf tr)).length ≤ c →
    ∃ st', runTrace st tr = some st' ∧ Inv st' ∧ CapInv c st' ∧
      st'.sink.out ++ inflight st' = st.sink.out ++ inflight st ++ serAll (recordsOf tr) := by
  induction tr with
  | nil =>
    intro st h1 h2 _
    exact ⟨st, rfl, h1, h2, by simp [recordsOf, serAll]⟩
  | cons e tr ih =>
    intro st hInv hCap hbound
    cases e with
    | log r =>
      have hlen : (serAll (recordsOf (Event.log r :: tr))).length =
          (serialize r).length + (serAll (recordsOf tr)).length := by
        simp [recordsOf, serAll_cons]
      have hroom : (inflight st).length + (serialize r).length ≤ c := by omega
      obtain ⟨st1, heq, hInv1, hCap1, hout, hinfl⟩ := log_preserves c st r hInv hCap hroom
      have hb1 : st1.sink.out.length + (inflight st1).length +
          (serAll (recordsOf tr)).length ≤ c := by
        rw [hout, hinfl, List.length_append]
        omega
      obtain ⟨st', hrun, hI, hC, hcat⟩ := ih st1 hInv1 hCap1 hb1
      refine ⟨st', ?_, hI, hC, ?_⟩
      · rw [runTrace]
        simp only [runEvent, heq]
        exact hrun
      · rw [hcat, hout, hinfl, recordsOf, serAll_cons]
        simp [List.append_assoc]
    | poll =>
      have hrec : recordsOf (Event.poll :: tr) = recordsOf tr := rfl
      rw [hrec] at hbound
      obtain ⟨p, st1, heq, hInv1, hCap1, hout, hinfl⟩ := poll_preserves c st hInv hCap
      have hb1 : st1.sink.out.length + (inflight st1).length +
          (serAll (recordsOf tr)).length ≤ c := by
        rw [hout, hinfl]
        exact hbound
      obtain ⟨st', hrun, hI, hC, hcat⟩ := ih st1 hInv1 hCap1 hb1
      refine ⟨st', ?_, hI, hC, ?_⟩
      · rw [runTrace]
        simp only [runEvent, heq, Option.map_some']
        exact hrun
      · rw [hcat, hout, hinfl, hrec]
    | hw =>
      have hrec : recordsOf (Event.hw :: tr) = recordsOf tr := rfl
      rw [hrec] at hbound
      obtain ⟨hInv1, hCap1, hcons⟩ := hw_preserves c st hInv hCap
      have hlen1 : st.hwStep.sink.out.length + (inflight st.hwStep).length =
          st.sink.out.length + (inflight st).length := by
        have := congrArg List.length hcons
        simpa [List.length_append] using this
      have hb1 : st.hwStep.sink.out.length + (inflight st.hwStep).length +
          (serAll (recordsOf tr)).length ≤ c := by omega
      obtain ⟨st', hrun, hI, hC, hcat⟩ := ih st.hwStep hInv1 hCap1 hb1
      refine ⟨st', ?_, hI, hC, ?_⟩
      · rw [runTrace]
        simp only [runEvent]
        exact hrun
      · rw [hcat, hcons, hrec]

/-- The code's filtered check agrees with the spec's reading. -/
lemma filtered_iff (filters : List (String × Option LevelFilter)) (target : String)
    (level : Level) :
    filtered filters target level = true ↔ specPass filters target level := by
  unfold filtered specPass
  by_cases hemp : filters.isEmpty
  · have : filters = [] := by
      cases filters with
      | nil => rfl
      | cons x xs => simp [List.isEmpty] at hemp
    simp [this]
  · rw [if_neg hemp]
    have hne : filters ≠ [] := by
      intro h
      rw [h] at hemp
      simp at hemp
    cases hf : filters.find? (fun p => p.1 == target) with
    | none =>
      simp only [hne, false_or]
      constructor
      · intro h
        simp at h
      · rintro ⟨lvl, hfind, _⟩
        exact absurd hfind (by simp)
    | some pr =>
      obtain ⟨tgt, lvl⟩ := pr
      have htgt : tgt = target := by
        have := List.find?_some hf
        simpa using this
      subst htgt
      simp only [hne, false_or]
      cases lvl with
      | none =>
        simp only [Option.isNone_none, Bool.true_or]
        constructor
        · intro _
          exact ⟨none, rfl, Or.inl rfl⟩
        · intro _
          trivial
      | some l =>
        simp only [Option.isNone_some, Bool.false_or]
        constructor
        · intro h
          refine ⟨some l, rfl, Or.inr ⟨l, rfl, ?_⟩⟩
          rw [Option.filter_some] at h
          by_cases hp : levelPermitted level l = true
          · simpa [levelPermitted] using hp
          · rw [if_neg hp] at h
            simp at h
        · rintro ⟨lvl', hfind, hcase⟩
          injection hfind with h1
          injection h1 with _ h2
          subst h2
          rcases hcase with h | ⟨l', hl', hle⟩
          · exact absurd h.symm (by simp)
          · injection hl' with h3
            subst h3
            simp [Option.filter_some, levelPermitted, hle]

/-- The status returned by poll() is Idle exactly when the slot holds a
buffer. -/
lemma pollStatus_iff (st : Inner) : pollStatus st = .Idle ↔ st.buffer.isSome = true := by
  unfold pollStatus
  cases st.buffer <;> simp

/-- Claim C1: for every record accepted by the filter, log() follows the
three-branch decision algorithm: with an idle buffer in the slot the record
is serialized into it and the transfer starts (slot becomes active); else
with a completed transfer the buffer is reclaimed, the record appended, and
the transfer started again; else the record is appended through the write
half into the unsent tail, no transfer is started, and the sink's transfer
state is untouched. -/
theorem claim_c1 (st : Inner) (r : Record) (hInv : Inv st) :
    (∀ b, st.buffer = some b →
      st.log r = some ⟨⟨some (writeRecordCircular b r,
          (writeRecordCircular b r).pending.length),
        st.sink.complete, st.sink.intrPending, st.sink.out⟩, none⟩)
    ∧ (st.buffer = none → st.sink.complete = true →
        ∃ b n, st.sink.active = some (b, n) ∧
          st.log r = some ⟨⟨some (writeRecordCircular b r,
              (writeRecordCircular b r).pending.length),
            false, st.sink.intrPending, st.sink.out⟩, none⟩)
    ∧ (st.buffer = none → st.sink.complete = false →
        ∃ b n, st.sink.active = some (b, n) ∧
          st.log r = some ⟨⟨some (writeRecordCircular b r, n),
            st.sink.complete, st.sink.intrPending, st.sink.out⟩, none⟩) := by
  obtain ⟨h1, h2, h3, h4⟩ := hInv
  refine ⟨?_, ?_, ?_⟩
  · intro b hb
    exact log_idle st r b hb (h1.mp (by simp [hb]))
  · intro hb hc
    obtain ⟨⟨b, n⟩, ha⟩ := Option.ne_none_iff_exists'.mp (h2 hc)
    exact ⟨b, n, ha, log_completed st r b n hb hc ha⟩
  · intro hb hc
    have ha' : st.sink.active ≠ none := by
      intro h
      have := h1.mpr h
      rw [hb] at this
      simp at this
    obtain ⟨⟨b, n⟩, ha⟩ := Option.ne_none_iff_exists'.mp ha'
    exact ⟨b, n, ha, log_active st r b n hb hc ha⟩

theorem claim_c1_witness :
    (initialInner 8).buffer = some ⟨8, []⟩ ∧
    (initialInner 8).log ⟨.info, "a", "b"⟩ =
      some ⟨⟨some (writeRecordCircular ⟨8, []⟩ ⟨.info, "a", "b"⟩,
          (writeRecordCircular ⟨8, []⟩ ⟨.info, "a", "b"⟩).pending.length),
        false, false, []⟩, none⟩ :=
  ⟨rfl, (claim_c1 (initialInner 8) ⟨.info, "a", "b"⟩ (inv_initial 8)).1 ⟨8, []⟩ rfl⟩

/-- Claim C2: poll(), in any state, clears a pending interrupt latch when
set; with a completed transfer it reclaims the buffer, restarting the
transfer when the reclaimed buffer is non-empty and storing it in the idle
slot otherwise; and it returns Idle exactly when the slot holds an idle
buffer afterwards. -/
theorem claim_c2 (st : Inner) (hInv : Inv st) :
    ∃ p st', st.poll = some (p, st') ∧
      st'.sink.intrPending = false ∧
      (st.sink.complete = false →
        st' = ⟨⟨st.sink.active, st.sink.complete, false, st.sink.out⟩, st.buffer⟩) ∧
      (st.sink.complete = true →
        ∃ b n, st.sink.active = some (b, n) ∧
          (b.pending ≠ [] →
            st' = ⟨⟨some (b, b.pending.length), false, false, st.sink.out⟩, st.buffer⟩) ∧
          (b.pending = [] →
            st' = ⟨⟨none, false, false, st.sink.out⟩, some b⟩)) ∧
      (p = .Idle ↔ st'.buffer.isSome = true) := by
  obtain ⟨h1, h2, h3, h4⟩ := hInv
  cases hcomp : st.sink.complete with
  | false =>
    refine ⟨_, _, poll_notComplete st hcomp, rfl, fun _ => rfl,
      fun h => absurd h (by simp), pollStatus_iff _⟩
  | true =>
    obtain ⟨⟨b, n⟩, ha⟩ := Option.ne_none_iff_exists'.mp (h2 hcomp)
    cases hpend : b.pending with
    | nil =>
      refine ⟨_, _, poll_complete_park st b n hcomp ha hpend, rfl,
        fun h => absurd h (by simp),
        fun _ => ⟨b, n, ha, fun hne => absurd hpend hne, fun _ => rfl⟩, by simp⟩
    | cons x xs =>
      refine ⟨_, _, poll_complete_restart st b n hcomp ha (by rw [hpend]; simp), rfl,
        fun h => absurd h (by simp),
        fun _ => ⟨b, n, ha, fun _ => rfl, fun he => absurd he (by rw [hpend]; simp)⟩,
        pollStatus_iff _⟩

theorem claim_c2_witness :
    (initialInner 5).poll = some (.Idle, initialInner 5) := by
  obtain ⟨p, st', heq, hintr, hfl, htr, hiff⟩ := claim_c2 (initialInner 5) (inv_initial 5)
  have hst : st' = initialInner 5 := hfl rfl
  have hp : p = .Idle := hiff.mpr (by rw [hst]; rfl)
  rw [hst, hp] at heq
  exact heq

/-- Claim C3: in every state reachable by any interleaving of log() and
poll() calls (and hardware completions) from the initial idle state, the
slot holds a buffer exactly when the sink has no in-flight or unreclaimed
transfer, and this invariant is preserved by every further step. -/
theorem claim_c3 (st st' : Inner) (h : Reachable st) :
    (st.buffer.isSome = true ↔ st.sink.active = none) ∧
    (Step st st' → (st'.buffer.isSome = true ↔ st'.sink.active = none)) :=
  ⟨(reachable_inv h).1, fun hs => (step_inv (reachable_inv h) hs).1⟩

theorem claim_c3_witness :
    ((initialInner 4).buffer.isSome = true ↔ (initialInner 4).sink.active = none) ∧
    (Step (initialInner 4) (initialInner 4).hwStep →
      ((initialInner 4).hwStep.buffer.isSome = true ↔
        (initialInner 4).hwStep.sink.active = none)) :=
  claim_c3 (initialInner 4) (initialInner 4).hwStep (Reachable.start 4)

/-- Claim C4: for any trace of accepted record calls whose total serialized
length fits the capacity, once the engine drains (the slot holds an empty
buffer), the transferred output is exactly the concatenation of the records'
serializations, in call order and byte-exact. -/
theorem claim_c4 (c : Nat) (tr : List Event) (st1 : Inner) (b : Circular)
    (hfit : (serAll (recordsOf tr)).length ≤ c)
    (hrun : runTrace (initialInner c) tr = some st1)
    (hb : st1.buffer = some b) (hempty : b.pending = []) :
    st1.sink.out = serAll (recordsOf tr) := by
  have hCap : CapInv c (initialInner c) := by
    constructor
    · intro b' h
      rw [show (initialInner c).buffer = some ⟨c, []⟩ from rfl] at h
      injection h with h
      rw [← h]
    · intro b' n h
      rw [show (initialInner c).sink.active = none from rfl] at h
      exact Option.noConfusion h
  have hbound : (initialInner c).sink.out.length + (inflight (initialInner c)).length +
      (serAll (recordsOf tr)).length ≤ c := by
    simpa [initialInner, inflight] using hfit
  obtain ⟨st2, hrun2, _, _, hcat⟩ := run_ok tr c (initialInner c) (inv_initial c) hCap hbound
  rw [hrun] at hrun2
  injection hrun2 with h
  subst h
  have hinf : inflight st1 = [] := by
    simp [inflight, hb, hempty]
  rw [hinf] at hcat
  simpa [initialInner, inflight] using hcat

theorem claim_c4_witness :
    (serAll (recordsOf trRun)).length ≤ 64 ∧
    runTrace (initialInner 64) trRun = some stRun ∧
    stRun.sink.out = serAll (recordsOf trRun) :=
  ⟨by decide, by decide,
    claim_c4 64 trRun stRun ⟨64, []⟩ (by decide) (by decide) rfl rfl⟩

/-- Claim C5: poll() is idempotent in the idle state: from any state in
which the slot holds an empty idle buffer, every repeated poll() call
returns Idle and leaves the state unchanged (in particular no transfer is
ever started). -/
theorem claim_c5 (st : Inner) (b : Circular) (hInv : Inv st)
    (hb : st.buffer = some b) (he : b.pending = []) :
    ∀ n, pollN st n = some (.Idle, st) := by
  have ha : st.sink.active = none := hInv.1.mp (by simp [hb])
  have hc : st.sink.complete = false := by
    cases hcomp : st.sink.complete with
    | false => rfl
    | true => exact absurd ha (hInv.2.1 hcomp)
  have hi : st.sink.intrPending = false := by
    cases hint : st.sink.intrPending with
    | false => rfl
    | true => exact absurd ha (hInv.2.2.1 hint)
  have hone : st.poll = some (.Idle, st) := by
    obtain ⟨⟨a, co, i, o⟩, buf⟩ := st
    simp only at ha hc hi hb
    subst ha hc hi hb
    rfl
  intro n
  induction n with
  | zero => exact hone
  | succ n ih =>
    rw [pollN, ih]
    exact hone

theorem claim_c5_witness :
    (initialInner 7).buffer = some ⟨7, []⟩ ∧
    pollN (initialInner 7) 2 = some (.Idle, initialInner 7) :=
  ⟨rfl, claim_c5 (initialInner 7) ⟨7, []⟩ (inv_initial 7) rfl rfl 2⟩

/-- Claim C6: a record passes the enabled check exactly when the global
maximum level permits its level and (the filter set is empty or the target
is present — first matching entry of the ordered set — with no threshold or
a threshold at or above the record's level). -/
theorem claim_c6 (maxLevel : LevelFilter) (filters : List (String × Option LevelFilter))
    (target : String) (level : Level) :
    enabled maxLevel filters target level = true ↔
      (level.toNat ≤ maxLevel.toNat ∧ specPass filters target level) := by
  unfold enabled
  rw [Bool.and_eq_true, filtered_iff]
  exact and_congr (by simp [levelPermitted]) Iff.rfl

/-- Claim C7: registration is one-time: once init() has succeeded (the log
crate flag is set and the slot is occupied), a second init() returns the
already-set error, changes nothing, keeps the first engine stored, and
subsequent log dispatch behaves identically. -/
theorem claim_c7 (g : Globals) (e : Engine)
    (hset : g.crateSet = true) (hlog : g.logger = some e)
    (f : List (String × Option LevelFilter)) (m : LevelFilter)
    (snk : Sink) (buf : Circular) :
    dmaInit g f m snk buf = (.error (), g) ∧
      (dmaInit g f m snk buf).2.logger = some e ∧
      ∀ r, gLog (dmaInit g f m snk buf).2 r = gLog g r := by
  have h1 : dmaInit g f m snk buf = (.error (), g) := by
    unfold dmaInit
    simp [hlog, hset]
  exact ⟨h1, by rw [h1]; exact hlog, fun r => by rw [h1]⟩

theorem claim_c7_witness :
    gAfterInit.crateSet = true ∧
    dmaInit gAfterInit [] .warn ⟨none, false, false, []⟩ ⟨2, []⟩ =
      (.error (), gAfterInit) :=
  ⟨rfl, (claim_c7 gAfterInit ⟨[], initialInner 4⟩ rfl rfl [] .warn
    ⟨none, false, false, []⟩ ⟨2, []⟩).1⟩

/-- Claim C8: insertion through the tail-writer never fails and never
signals truncation: write_str always returns Ok, bytes beyond the remaining
capacity are silently dropped, and the bytes that fit are retained
unchanged, so the unread length never exceeds the capacity. -/
theorem claim_c8 (w : Writer) (s : String) :
    (w.write_str s).2 = true ∧
    (w.write_str s).1.pendingOf =
      w.pendingOf ++ s.data.take (w.capOf - w.pendingOf.length) ∧
    (w.pendingOf.length ≤ w.capOf → (w.write_str s).1.pendingOf.length ≤ w.capOf) := by
  cases w with
  | circularW b =>
    refine ⟨rfl, rfl, ?_⟩
    intro h
    simp only [Writer.write_str, Writer.pendingOf, Writer.capOf, Circular.insert,
      List.length_append, List.length_take] at h ⊢
    omega
  | writeHalfW b =>
    refine ⟨rfl, rfl, ?_⟩
    intro h
    simp only [Writer.write_str, Writer.pendingOf, Writer.capOf, Circular.insert,
      List.length_append, List.length_take] at h ⊢
    omega

theorem claim_c8_witness :
    (Writer.circularW ⟨4, []⟩).pendingOf.length ≤ (Writer.circularW ⟨4, []⟩).capOf ∧
    ((Writer.circularW ⟨4, []⟩).write_str "hello!").2 = true ∧
    ((Writer.circularW ⟨4, []⟩).write_str "hello!").1.pendingOf.length ≤ 4 :=
  have h := claim_c8 (Writer.circularW ⟨4, []⟩) "hello!"
  ⟨by decide, h.1, h.2.2 (by decide)⟩

/-- Claim C9: a record that fails the enabled check is a complete no-op on
the engine: log() writes no bytes, starts no transfer, clears no latch, and
leaves the state exactly as it was. -/
theorem claim_c9 (maxLevel : LevelFilter) (filters : List (String × Option LevelFilter))
    (st : Inner) (r : Record)
    (hdis : enabled maxLevel filters r.target r.level = false) :
    Logger.log maxLevel filters st r = some st := by
  unfold Logger.log
  rw [hdis]
  simp

theorem claim_c9_witness :
    enabled .off [] "t" .error = false ∧
    Logger.log .off [] (initialInner 3) ⟨.error, "t", "m"⟩ = some (initialInner 3) :=
  ⟨by decide, claim_c9 .off [] (initialInner 3) ⟨.error, "t", "m"⟩ (by decide)⟩

/-- Claim C10: calling poll() before init() panics: in every trace of
global events that contains no init() call, the first poll() aborts on the
unwrap of the empty global logger slot. -/
theorem claim_c10 (tr : List GEvent) (hpoll : ∀ e ∈ tr, e = GEvent.poll)
    (hne : tr ≠ []) : runG freshGlobals tr = none := by
  cases tr with
  | nil => exact absurd rfl hne
  | cons e tr =>
    have he : e = GEvent.poll := hpoll e (by simp)
    subst he
    rfl

theorem claim_c10_witness :
    (∀ e ∈ [GEvent.poll], e = GEvent.poll) ∧ [GEvent.poll] ≠ [] ∧
    runG freshGlobals [GEvent.poll] = none :=
  ⟨by simp, by simp, claim_c10 [GEvent.poll] (by simp) (by simp)⟩

end UartLog
